import Mathlib

/-!
Verification of the conex layer planner (`src/planner.rs`).

The embedding models `ConexFile`, `ConexPlanner` and `ConexPlanner::generate_plan`.
`PathBuf` is modelled as `String` (the planner only copies and compares paths),
`usize` as `Nat` (the single place where `usize` underflow matters,
`split_threshold - current_layer_size` at planner.rs:128, is modelled explicitly:
when `current_layer_size > split_threshold` the Rust subtraction underflows and
the run is recorded as `.panicked`), `u64` inodes as `Nat`, and `i64` ctimes as
`Int`.  The `while remainder_size != 0` loop of pass 2 is not structurally
recursive (for `split_threshold = 0` it loops forever), so it takes an explicit
fuel argument; exhausting the fuel is recorded as `.outOfFuel`, and the
termination claims are stated in terms of fuel sufficiency.

The metadata collector (`ingest_dir`) performs filesystem I/O and is outside
the claims; records enter the planner as data, exactly as in the repository's
own unit tests.
-/

/-- `ConexFile` from planner.rs:14-24. -/
structure ConexFile where
  path : String
  relative_path : String
  size : Nat
  inode : Nat
  hard_link_to : Option String
  ctime_nsec : Int
  start_offset : Option Nat
  chunk_size : Option Nat
  deriving DecidableEq, Repr

/-- `ConexPlanner` from planner.rs:9-12. -/
structure ConexPlanner where
  layer_to_files : List (String × List ConexFile)
  split_threshold : Nat
  deriving DecidableEq, Repr

/-- Association-list model of the `HashMap<u64, PathBuf>` of pass 1
(planner.rs:93).  Only `get` and guarded `insert` are used, so iteration
order never matters. -/
def lookupInode : List (Nat × String) → Nat → Option String
  | [], _ => none
  | (k, v) :: m, i => if k = i then some v else lookupInode m i

/-- Pass 1 body (planner.rs:95-101): walk one root's record list in order,
mapping each inode to the relative path of its first occurrence; later
records with a seen inode get `hard_link_to` set to that path, first
occurrences are left exactly as provided. -/
def resolveHardLinks : List ConexFile → List (Nat × String) → List ConexFile
  | [], _ => []
  | f :: fs, m =>
    match lookupInode m f.inode with
    | some p => { f with hard_link_to := some p } :: resolveHardLinks fs m
    | none => f :: resolveHardLinks fs ((f.inode, f.relative_path) :: m)

/-- Pass 1 of `generate_plan` (planner.rs:89-105): resolve hard links within
each root's list independently. -/
def pass1 (p : ConexPlanner) : List (String × List ConexFile) :=
  p.layer_to_files.map (fun kv => (kv.1, resolveHardLinks kv.2 []))

/-- The mutable pass-2 state of `generate_plan` (planner.rs:108-110):
`new_layer_to_files`, `new_layer`, `current_layer_size`. -/
structure PackState where
  plan : List (String × List ConexFile)
  newLayer : List ConexFile
  currentLayerSize : Nat
  deriving DecidableEq, Repr

/-- Result of a pass-2 run.  `.panicked` models the `usize` underflow of
`split_threshold - current_layer_size` (planner.rs:128); `.outOfFuel` means
the fuel bound did not cover the run. -/
inductive PackResult (α : Type) where
  | ok : α → PackResult α
  | panicked : PackResult α
  | outOfFuel : PackResult α
  deriving DecidableEq, Repr

/-- The `while remainder_size != 0` loop of pass 2 (planner.rs:114-135) for a
single record `f` of the root labelled `lbl`.  Arguments after `f`: fuel,
`remainder_size`, state.  The branch condition is the literal condition of
planner.rs:116: `hard_link_to.is_none() || remainder + current < threshold`.
In the split branch the Rust code computes `split_threshold -
current_layer_size`; when `currentLayerSize > t` this underflows and we
return `.panicked`, otherwise the `Nat` subtraction agrees with `usize`. -/
def packFileLoop (t : Nat) (lbl : String) (f : ConexFile) :
    Nat → Nat → PackState → PackResult PackState
  | _, 0, s => .ok s
  | 0, _ + 1, _ => .outOfFuel
  | fuel + 1, r + 1, s =>
    if f.hard_link_to = none ∨ r + 1 + s.currentLayerSize < t then
      .ok { s with
        newLayer := s.newLayer ++
          [if r + 1 ≠ f.size then
             { f with chunk_size := some (r + 1), start_offset := some (f.size - (r + 1)) }
           else f],
        currentLayerSize := s.currentLayerSize + (r + 1) }
    else
      if s.currentLayerSize ≤ t then
        packFileLoop t lbl f fuel (r + 1 - (t - s.currentLayerSize))
          { plan := s.plan ++
              [(lbl, s.newLayer ++
                [{ f with start_offset := some (f.size - (r + 1)),
                          chunk_size := some (t - s.currentLayerSize) }])],
            newLayer := [],
            currentLayerSize := 0 }
      else .panicked

/-- The `for file in files.iter()` loop of pass 2 (planner.rs:112-136).  Each
record's loop gets the same (per-record) fuel. -/
def packFiles (t : Nat) (lbl : String) (fuel : Nat) :
    List ConexFile → PackState → PackResult PackState
  | [], s => .ok s
  | f :: fs, s =>
    match packFileLoop t lbl f fuel f.size s with
    | .ok s1 => packFiles t lbl fuel fs s1
    | .panicked => .panicked
    | .outOfFuel => .outOfFuel

/-- The `for (layer, files) in self.layer_to_files.iter()` loop of pass 2
(planner.rs:111-137).  The state threads across roots unchanged. -/
def packLayers (t fuel : Nat) :
    List (String × List ConexFile) → PackState → PackResult PackState
  | [], s => .ok s
  | (lbl, fs) :: rest, s =>
    match packFiles t lbl fuel fs s with
    | .ok s1 => packLayers t fuel rest s1
    | .panicked => .panicked
    | .outOfFuel => .outOfFuel

/-- `ConexPlanner::generate_plan` (planner.rs:87-145): pass 1, then pass 2,
then flush a non-empty running layer under the sentinel label `"last"`
(planner.rs:138-142). -/
def generate_plan (fuel : Nat) (p : ConexPlanner) :
    PackResult (List (String × List ConexFile)) :=
  match packLayers p.split_threshold fuel (pass1 p) ⟨[], [], 0⟩ with
  | .ok s =>
    .ok (if s.newLayer.isEmpty then s.plan else s.plan ++ [("last", s.newLayer)])
  | .panicked => .panicked
  | .outOfFuel => .outOfFuel

/-! ### Derived notions used to state the claims -/

/-- The bytes a planned record contributes to its layer: `chunk_size` when
fragmented, else the full `size`. -/
def recordBytes (f : ConexFile) : Nat :=
  f.chunk_size.getD f.size

/-- Total bytes of one output layer. -/
def layerBytes (l : List ConexFile) : Nat :=
  (l.map recordBytes).sum

/-- Bytes contributed by hard-link-alias records (`hard_link_to = Some`). -/
def someBytes (l : List ConexFile) : Nat :=
  ((l.filter (fun f => f.hard_link_to.isSome)).map recordBytes).sum

/-- Bytes contributed by non-alias records (`hard_link_to = None`). -/
def noneBytes (l : List ConexFile) : Nat :=
  ((l.filter (fun f => f.hard_link_to.isNone)).map recordBytes).sum

/-- All records held by a pass-2 state, in emission order: the records of the
completed layers followed by the running layer. -/
def stateRecords (s : PackState) : List ConexFile :=
  (s.plan.map Prod.snd).flatten ++ s.newLayer

/-- All records of a finished plan. -/
def planRecords (plan : List (String × List ConexFile)) : List ConexFile :=
  (plan.map Prod.snd).flatten

/-- A record as produced by the collector: the fragment fields are unset. -/
def ConexFile.wfRecord (f : ConexFile) : Prop :=
  f.start_offset = none ∧ f.chunk_size = none

instance (f : ConexFile) : Decidable f.wfRecord := by
  unfold ConexFile.wfRecord; infer_instance

/-- Every record of the planner input has unset fragment fields (true of
everything `ingest_dir` produces). -/
def wfInput (p : ConexPlanner) : Prop :=
  ∀ pr ∈ p.layer_to_files, ∀ f ∈ pr.2, f.wfRecord

instance (p : ConexPlanner) : Decidable (wfInput p) := by
  unfold wfInput; infer_instance

/-- The exact list of records that the packing loop emits for one record `f`,
given the loop's fuel, remainder and entering `current_layer_size`.  This is
the emission trace of `packFileLoop`; `packFileLoop_stateRecords` proves that
a successful `packFileLoop` run appends exactly this list to the state's
records. -/
def fileEmits (t : Nat) (f : ConexFile) : Nat → Nat → Nat → List ConexFile
  | _, 0, _ => []
  | 0, _ + 1, _ => []
  | fuel + 1, r + 1, c =>
    if f.hard_link_to = none ∨ r + 1 + c < t then
      [if r + 1 ≠ f.size then
          { f with chunk_size := some (r + 1), start_offset := some (f.size - (r + 1)) }
        else f]
    else
      if c ≤ t then
        { f with start_offset := some (f.size - (r + 1)), chunk_size := some (t - c) }
          :: fileEmits t f fuel (r + 1 - (t - c)) 0
      else []

/-- `covers f start l`: the records `l`, in order, are fragments of `f` that
tile the byte range `[start, f.size)` exactly — each fragment starts where
the previous one ends, with no gap and no overlap, and the last one ends at
`f.size`. -/
def covers (f : ConexFile) : Nat → List ConexFile → Bool
  | start, [] => start == f.size
  | start, g :: gs =>
    g.start_offset == some start &&
      match g.chunk_size with
      | some c => decide (start + c ≤ f.size) && covers f (start + c) gs
      | none => false

/-- Extract the plan of a successful run (`[]` on failure); used to state
facts about the layers of concrete runs. -/
def okPlan : PackResult (List (String × List ConexFile)) → List (String × List ConexFile)
  | .ok p => p
  | _ => []

/-- The fragment of `f` covering `[o, o + c)`. -/
def mkFrag (f : ConexFile) (o c : Nat) : ConexFile :=
  { f with start_offset := some o, chunk_size := some c }

/-- Expected plan for a one-record input whose record is split: one singleton
layer per full `t`-byte fragment, then (when `t` does not divide the size)
one final `"last"` layer holding the leftover fragment. -/
def expectedSplitPlan (t : Nat) (lbl : String) (f : ConexFile) :
    List (String × List ConexFile) :=
  (List.range (f.size / t)).map (fun i => (lbl, [mkFrag f (i * t) t])) ++
    (if f.size % t = 0 then []
     else [("last", [mkFrag f (f.size / t * t) (f.size % t)])])

/-- Fuel that covers every record of the input (each record's loop needs at
most `size + 2` iterations when `split_threshold > 0`). -/
def planFuel (p : ConexPlanner) : Nat :=
  ((p.layer_to_files.map (fun kv => ((kv.2.map ConexFile.size).foldr max 0))).foldr max 0) + 2

/-! ### Concrete fixtures -/

/-- Canonical record for inode 1 (counterexample to C1). -/
def fileA : ConexFile := ⟨"/r/a", "a", 10, 1, none, 0, none, none⟩

/-- Hard link to `fileA` (same inode, same size). -/
def fileB : ConexFile := ⟨"/r/b", "b", 10, 1, none, 0, none, none⟩

/-- One root with a hard-link pair and a budget of 15. -/
def plannerC1 : ConexPlanner := ⟨[("r", [fileA, fileB])], 15⟩

/-- Canonical record for inode 1, 60 bytes (C2 failing input). -/
def fileC : ConexFile := ⟨"/r/c", "c", 60, 1, none, 0, none, none⟩

/-- Hard link to `fileC`. -/
def fileD : ConexFile := ⟨"/r/d", "d", 60, 1, none, 0, none, none⟩

/-- Budget 50; `fileC` alone overfills the running layer, then `fileD`'s
split computes `50 - 60` on `usize`. -/
def plannerC2 : ConexPlanner := ⟨[("r", [fileC, fileD])], 50⟩

/-- A lone 100-byte record, entering with `hard_link_to = None`. -/
def fileBig : ConexFile := ⟨"/r/big", "big", 100, 1, none, 0, none, none⟩

/-- Budget 50 with the lone 100-byte non-alias record (counterexample to C3). -/
def plannerC3 : ConexPlanner := ⟨[("r", [fileBig])], 50⟩

/-- A lone 100-byte record entering with `hard_link_to = Some`, as in the
repository's `test_fragment_layers` fixture. -/
def fileBigTagged : ConexFile := ⟨"/r/big", "big", 100, 1, some "", 0, none, none⟩

/-- Budget 50 with the tagged 100-byte record. -/
def plannerC3Tagged : ConexPlanner := ⟨[("r", [fileBigTagged])], 50⟩

/-- A lone 60-byte non-alias record over a budget of 50 (counterexample to
C4). -/
def fileOver : ConexFile := ⟨"/r/o", "o", 60, 1, none, 0, none, none⟩

/-- Budget 50, one 60-byte non-alias record. -/
def plannerC4 : ConexPlanner := ⟨[("r", [fileOver])], 50⟩

/-- 40-byte filler record (C5 counterexample). -/
def fileE : ConexFile := ⟨"/r/e", "e", 40, 1, none, 0, none, none⟩

/-- Canonical record for inode 7, 10 bytes. -/
def fileF : ConexFile := ⟨"/r/f", "f", 10, 7, none, 0, none, none⟩

/-- Hard link to `fileF`; it arrives when the running layer holds exactly the
50-byte budget, so its first fragment is zero bytes long. -/
def fileG : ConexFile := ⟨"/r/g", "g", 10, 7, none, 0, none, none⟩

/-- Budget 50: after `fileE` and `fileF` the running layer holds exactly 50
bytes and the alias `fileG` is cut into a zero-byte fragment plus a whole
record. -/
def plannerC5 : ConexPlanner := ⟨[("r", [fileE, fileF, fileG])], 50⟩

/-- First fixture record of the repository's `test_split_layers`. -/
def file123 : ConexFile :=
  ⟨"/var/lib/docker/overlay2/123", "123", 100, 1, some "", 0, none, none⟩

/-- Second fixture record of `test_split_layers`. -/
def file456 : ConexFile :=
  ⟨"/var/lib/docker/overlay2/456", "456", 100, 2, some "", 0, none, none⟩

/-- Third fixture record of `test_split_layers`. -/
def file789 : ConexFile :=
  ⟨"/var/lib/docker/overlay2/789", "789", 100, 3, some "", 0, none, none⟩

/-- The `test_split_layers` fixture: three 100-byte records, budget 100. -/
def plannerC7 : ConexPlanner :=
  ⟨[("/var/lib/docker/overlay2", [file123, file456, file789])], 100⟩

/-- 50-byte record of the first root (C8). -/
def fileRootA : ConexFile := ⟨"/ra/x", "x", 50, 1, none, 0, none, none⟩

/-- 50-byte record of the second root (C8). -/
def fileRootB : ConexFile := ⟨"/rb/y", "y", 50, 2, none, 0, none, none⟩

/-- Two roots of one 50-byte record each, budget 100. -/
def plannerC8 : ConexPlanner := ⟨[("ra", [fileRootA]), ("rb", [fileRootB])], 100⟩

/-- A zero-byte record. -/
def fileZero : ConexFile := ⟨"/r/z", "z", 0, 9, none, 0, none, none⟩

/-- A planner holding a zero-byte record next to `fileA`, budget 100. -/
def plannerC9 : ConexPlanner := ⟨[("r", [fileZero, fileA])], 100⟩

/-- An alias-tagged 1-byte record: with `split_threshold = 0` its packing
loop emits zero-byte fragments forever. -/
def fileLoop : ConexFile := ⟨"/r/l", "l", 1, 1, some "q", 0, none, none⟩

/-- The diverging input of C10: `split_threshold = 0`. -/
def plannerC10 : ConexPlanner := ⟨[("r", [fileLoop])], 0⟩

/-! ### Basic unfolding lemmas -/

/-- A record with no remaining bytes ends its packing loop at once, leaving
the state untouched (the `while remainder_size != 0` guard fails). -/
theorem packFileLoop_zero (t : Nat) (lbl : String) (f : ConexFile)
    (fuel : Nat) (s : PackState) : packFileLoop t lbl f fuel 0 s = .ok s := by
  cases fuel <;> rfl

/-- `fileEmits` on a zero remainder is empty. -/
theorem fileEmits_zero (t : Nat) (f : ConexFile) (fuel c : Nat) :
    fileEmits t f fuel 0 c = [] := by
  cases fuel <;> rfl

/-- One unfolding of the packing loop with positive fuel and remainder. -/
theorem packFileLoop_succ (t : Nat) (lbl : String) (f : ConexFile)
    (fuel r : Nat) (s : PackState) :
    packFileLoop t lbl f (fuel + 1) (r + 1) s =
      if f.hard_link_to = none ∨ r + 1 + s.currentLayerSize < t then
        .ok { s with
          newLayer := s.newLayer ++
            [if r + 1 ≠ f.size then
               { f with chunk_size := some (r + 1), start_offset := some (f.size - (r + 1)) }
             else f],
          currentLayerSize := s.currentLayerSize + (r + 1) }
      else
        if s.currentLayerSize ≤ t then
          packFileLoop t lbl f fuel (r + 1 - (t - s.currentLayerSize))
            { plan := s.plan ++
                [(lbl, s.newLayer ++
                  [{ f with start_offset := some (f.size - (r + 1)),
                            chunk_size := some (t - s.currentLayerSize) }])],
              newLayer := [],
              currentLayerSize := 0 }
        else .panicked := rfl

/-- One unfolding of the emission trace with positive fuel and remainder. -/
theorem fileEmits_succ (t : Nat) (f : ConexFile) (fuel r c : Nat) :
    fileEmits t f (fuel + 1) (r + 1) c =
      if f.hard_link_to = none ∨ r + 1 + c < t then
        [if r + 1 ≠ f.size then
            { f with chunk_size := some (r + 1), start_offset := some (f.size - (r + 1)) }
          else f]
      else
        if c ≤ t then
          { f with start_offset := some (f.size - (r + 1)), chunk_size := some (t - c) }
            :: fileEmits t f fuel (r + 1 - (t - c)) 0
        else [] := rfl

/-! ### Concrete runs -/

/-- C1 counterexample.  On `plannerC1` (budget 15, records `a` and `b` of
size 10 sharing inode 1, both entering with `hard_link_to = None`), pass 1
makes `b` a hard-link alias of `a`, and pass 2 then emits `b` as TWO
fragments (5 bytes into the first layer, 5 bytes into the `"last"` layer) —
a hard-link-alias record is fragmented, refuting the claim that such a
record is always appended whole. -/
theorem C1_counterexample :
    generate_plan 200 plannerC1 =
      .ok [("r", [fileA, mkFrag { fileB with hard_link_to := some "a" } 0 5]),
           ("last", [mkFrag { fileB with hard_link_to := some "a" } 5 5])] ∧
    (∃ g ∈ planRecords (okPlan (generate_plan 200 plannerC1)),
       g.hard_link_to.isSome ∧ g.chunk_size.isSome) := by
  constructor
  · decide
  · refine ⟨mkFrag { fileB with hard_link_to := some "a" } 0 5, ?_, ?_, ?_⟩ <;> decide

/-- C2: the failing input.  On `plannerC2` (budget 50, two 60-byte records
sharing inode 1), the non-alias record `c` is appended whole and pushes the
running layer to 60 bytes; the alias record `d` then takes the split branch
and the Rust code computes `split_threshold - current_layer_size = 50 - 60`,
which underflows `usize` — the packing pass fails on a well-formed input. -/
theorem C2_underflow_panic : generate_plan 200 plannerC2 = .panicked := by decide

/-- C3 counterexample.  A lone 100-byte record entering with
`hard_link_to = None` (exactly what pass 1 produces for a fresh single file)
is NOT split at budget 50: the branch condition of planner.rs:116 appends
any `hard_link_to = None` record whole, so the plan has one layer holding
the unfragmented record instead of the claimed 2 layers of 50-byte
fragments. -/
theorem C3_counterexample :
    generate_plan 200 plannerC3 = .ok [("last", [fileBig])] ∧
    (okPlan (generate_plan 200 plannerC3)).length = 1 ∧
    ∀ g ∈ planRecords (okPlan (generate_plan 200 plannerC3)),
      g.start_offset = none ∧ g.chunk_size = none := by
  refine ⟨by decide, by decide, ?_⟩
  decide

/-- C4 counterexample.  On `plannerC4` (budget 50, one 60-byte record with
`hard_link_to = None`), the single output layer holds 60 > 50 bytes although
it contains no hard-link-alias record at all: the overflow is due to a
`None` record appended whole, the opposite of the claimed exception. -/
theorem C4_counterexample :
    generate_plan 200 plannerC4 = .ok [("last", [fileOver])] ∧
    (∃ pr ∈ okPlan (generate_plan 200 plannerC4),
       ¬ layerBytes pr.2 ≤ plannerC4.split_threshold ∧
         ∀ g ∈ pr.2, g.hard_link_to = none) := by
  refine ⟨by decide, ("last", [fileOver]), by decide, by decide, ?_⟩
  decide

/-- C5 counterexample.  On `plannerC5` (budget 50), records `e` (40 bytes)
and `f` (10 bytes) fill the running layer to exactly 50; the alias record
`g` (10 bytes, inode shared with `f`) then takes the split branch with
remaining capacity 0, emitting a zero-byte fragment, and its full 10 bytes
are afterwards appended as a whole, unfragmented record.  The fragments
produced for `g` therefore sum to 0, not to `g.size` — they do not tile
`[0, size)`. -/
theorem C5_counterexample :
    generate_plan 200 plannerC5 =
      .ok [("r", [fileE, fileF, mkFrag { fileG with hard_link_to := some "f" } 0 0]),
           ("last", [{ fileG with hard_link_to := some "f" }])] ∧
    ((planRecords (okPlan (generate_plan 200 plannerC5))).filter
        (fun g => g.relative_path == "g" && g.chunk_size.isSome)) ≠ [] ∧
    (((planRecords (okPlan (generate_plan 200 plannerC5))).filter
        (fun g => g.relative_path == "g" && g.chunk_size.isSome)).map
      (fun g => g.chunk_size.getD 0)).sum ≠ fileG.size := by
  refine ⟨by decide, by decide, ?_⟩
  decide

/-- C7 counterexample.  On the repository's own `test_split_layers` fixture
(three 100-byte records tagged `hard_link_to = Some`, budget 100) the plan
does have 3 layers of one record each, but every planned record carries the
fragmentation fields (`start_offset = Some 0`, `chunk_size = Some 100`):
each record goes through the split branch, is emitted as a full-size
fragment, and closes its layer — so "no record carrying fragmentation
fields" is false.  (Had the records entered with `hard_link_to = None`, all
three would instead have been appended whole into a single layer.) -/
theorem C7_counterexample :
    generate_plan 200 plannerC7 =
      .ok [("/var/lib/docker/overlay2", [mkFrag file123 0 100]),
           ("/var/lib/docker/overlay2", [mkFrag file456 0 100]),
           ("/var/lib/docker/overlay2", [mkFrag file789 0 100])] ∧
    (∃ pr ∈ okPlan (generate_plan 200 plannerC7), ∃ g ∈ pr.2,
       g.chunk_size ≠ none) := by
  refine ⟨by decide,
    ("/var/lib/docker/overlay2", [mkFrag file123 0 100]), by decide,
    mkFrag file123 0 100, by decide, ?_⟩
  decide

/-- C7 (amended).  On the `test_split_layers` fixture, `generate_plan`
returns exactly 3 layers, one record per layer, each layer holding exactly
the 100-byte budget, with each record emitted as a single fragment covering
its whole file (`start_offset = 0`, `chunk_size = 100 = size`); every file
closes its layer with zero leftover, so no `"last"` layer is produced. -/
theorem C7_amended_full_size_fragments :
    generate_plan 200 plannerC7 =
      .ok [("/var/lib/docker/overlay2", [mkFrag file123 0 100]),
           ("/var/lib/docker/overlay2", [mkFrag file456 0 100]),
           ("/var/lib/docker/overlay2", [mkFrag file789 0 100])] ∧
    (okPlan (generate_plan 200 plannerC7)).length = 3 ∧
    (∀ pr ∈ okPlan (generate_plan 200 plannerC7),
       pr.2.length = 1 ∧ layerBytes pr.2 = 100) := by
  refine ⟨by decide, by decide, ?_⟩
  decide

/-- C8.  Two roots contributing one 50-byte record each under budget 100 are
merged into exactly one output layer holding both records, emitted under the
sentinel label `"last"`; and in general the running pass-2 state persists
across root boundaries: packing a concatenation of root lists is packing the
first part and then the second from the state the first part left behind. -/
theorem C8_merge_across_roots :
    generate_plan 200 plannerC8 = .ok [("last", [fileRootA, fileRootB])] ∧
    ∀ (t fuel : Nat) (l1 l2 : List (String × List ConexFile)) (s : PackState),
      packLayers t fuel (l1 ++ l2) s =
        match packLayers t fuel l1 s with
        | .ok s1 => packLayers t fuel l2 s1
        | .panicked => .panicked
        | .outOfFuel => .outOfFuel := by
  constructor
  · decide
  · intro t fuel l1 l2 s
    induction l1 generalizing s with
    | nil => simp [packLayers]
    | cons pr rest ih =>
      obtain ⟨lbl, fs⟩ := pr
      simp only [List.cons_append, packLayers]
      cases h : packFiles t lbl fuel fs s <;> simp [ih]

/-! ### The emission trace of the packing loop -/

/-- Appending a record to the running layer appends it to the state's
records. -/
theorem stateRecords_fit (s : PackState) (g : ConexFile) (n : Nat) :
    stateRecords { s with newLayer := s.newLayer ++ [g], currentLayerSize := n } =
      stateRecords s ++ [g] := by
  simp [stateRecords]

/-- Closing the running layer (after appending a final fragment to it)
also just appends that fragment to the state's records. -/
theorem stateRecords_close (s : PackState) (lbl : String) (g : ConexFile) :
    stateRecords ⟨s.plan ++ [(lbl, s.newLayer ++ [g])], [], 0⟩ =
      stateRecords s ++ [g] := by
  simp [stateRecords]

/-- A successful packing loop for one record appends exactly its emission
trace `fileEmits` to the state's records. -/
theorem packFileLoop_stateRecords (t : Nat) (lbl : String) (f : ConexFile) :
    ∀ (fuel r : Nat) (s s1 : PackState),
      packFileLoop t lbl f fuel r s = .ok s1 →
      stateRecords s1 = stateRecords s ++ fileEmits t f fuel r s.currentLayerSize := by
  intro fuel
  induction fuel with
  | zero =>
    intro r s s1 he
    cases r with
    | zero =>
      rw [packFileLoop_zero] at he
      injection he with h
      subst h
      simp [fileEmits_zero]
    | succ r => simp [packFileLoop] at he
  | succ fuel ih =>
    intro r s s1 he
    cases r with
    | zero =>
      rw [packFileLoop_zero] at he
      injection he with h
      subst h
      simp [fileEmits_zero]
    | succ r =>
      rw [packFileLoop_succ] at he
      rw [fileEmits_succ]
      by_cases hc : f.hard_link_to = none ∨ r + 1 + s.currentLayerSize < t
      · rw [if_pos hc] at he
        rw [if_pos hc]
        injection he with h
        subst h
        exact stateRecords_fit s _ _
      · rw [if_neg hc] at he
        rw [if_neg hc]
        by_cases hct : s.currentLayerSize ≤ t
        · rw [if_pos hct] at he
          rw [if_pos hct]
          rw [ih _ _ _ he, stateRecords_close]
          simp
        · rw [if_neg hct] at he
          simp at he

/-- Every record the loop emits for `f` is a clone of `f`: its `size` field
is `f.size`. -/
theorem fileEmits_size_eq (t : Nat) (f : ConexFile) :
    ∀ (fuel r c : Nat) (g : ConexFile), g ∈ fileEmits t f fuel r c → g.size = f.size := by
  intro fuel
  induction fuel with
  | zero =>
    intro r c g hg
    cases r with
    | zero => rw [fileEmits_zero] at hg; cases hg
    | succ r => simp [fileEmits] at hg
  | succ fuel ih =>
    intro r c g hg
    cases r with
    | zero => rw [fileEmits_zero] at hg; cases hg
    | succ r =>
      rw [fileEmits_succ] at hg
      by_cases hc : f.hard_link_to = none ∨ r + 1 + c < t
      · rw [if_pos hc] at hg
        rcases List.mem_singleton.mp hg with rfl
        by_cases hr : r + 1 ≠ f.size <;> simp [hr]
      · rw [if_neg hc] at hg
        by_cases hct : c ≤ t
        · rw [if_pos hct] at hg
          rcases List.mem_cons.mp hg with rfl | hg
          · rfl
          · exact ih _ _ _ hg
        · rw [if_neg hct] at hg; cases hg

/-- Every record the loop emits for `f` keeps `f`'s `hard_link_to`. -/
theorem fileEmits_hard_eq (t : Nat) (f : ConexFile) :
    ∀ (fuel r c : Nat) (g : ConexFile),
      g ∈ fileEmits t f fuel r c → g.hard_link_to = f.hard_link_to := by
  intro fuel
  induction fuel with
  | zero =>
    intro r c g hg
    cases r with
    | zero => rw [fileEmits_zero] at hg; cases hg
    | succ r => simp [fileEmits] at hg
  | succ fuel ih =>
    intro r c g hg
    cases r with
    | zero => rw [fileEmits_zero] at hg; cases hg
    | succ r =>
      rw [fileEmits_succ] at hg
      by_cases hc : f.hard_link_to = none ∨ r + 1 + c < t
      · rw [if_pos hc] at hg
        rcases List.mem_singleton.mp hg with rfl
        by_cases hr : r + 1 ≠ f.size <;> simp [hr]
      · rw [if_neg hc] at hg
        by_cases hct : c ≤ t
        · rw [if_pos hct] at hg
          rcases List.mem_cons.mp hg with rfl | hg
          · rfl
          · exact ih _ _ _ hg
        · rw [if_neg hct] at hg; cases hg

/-- A record with `hard_link_to = None` and positive size is emitted as
exactly one whole record — the record itself — whatever the threshold and
the current layer size (the branch condition of planner.rs:116 is satisfied
by its left disjunct alone). -/
theorem fileEmits_of_none (t : Nat) (f : ConexFile) (fuel c : Nat)
    (hn : f.hard_link_to = none) (hsz : f.size ≠ 0) :
    fileEmits t f (fuel + 1) f.size c = [f] := by
  cases hs : f.size with
  | zero => exact absurd hs hsz
  | succ n =>
    rw [fileEmits_succ]
    rw [if_pos (Or.inl hn)]
    simp [← hs]

/-- Pass 1 changes nothing but the `hard_link_to` field: every output record
agrees with some input record on all other fields. -/
theorem resolveHardLinks_mem :
    ∀ (fs : List ConexFile) (m : List (Nat × String)) (g : ConexFile),
      g ∈ resolveHardLinks fs m →
      ∃ f ∈ fs, g.path = f.path ∧ g.relative_path = f.relative_path ∧
        g.size = f.size ∧ g.inode = f.inode ∧ g.ctime_nsec = f.ctime_nsec ∧
        g.start_offset = f.start_offset ∧ g.chunk_size = f.chunk_size := by
  intro fs
  induction fs with
  | nil => intro m g hg; simp [resolveHardLinks] at hg
  | cons f fs ih =>
    intro m g hg
    rw [resolveHardLinks] at hg
    cases hm : lookupInode m f.inode with
    | some p =>
      rw [hm] at hg
      rcases List.mem_cons.mp hg with rfl | hg
      · exact ⟨f, List.mem_cons_self f fs, by simp⟩
      · obtain ⟨f0, hf0, hfields⟩ := ih m g hg
        exact ⟨f0, List.mem_cons_of_mem f hf0, hfields⟩
    | none =>
      rw [hm] at hg
      rcases List.mem_cons.mp hg with heq | hg
      · exact ⟨f, List.mem_cons_self f fs, by simp [heq]⟩
      · obtain ⟨f0, hf0, hfields⟩ := ih _ g hg
        exact ⟨f0, List.mem_cons_of_mem f hf0, hfields⟩

/-- Record-level decomposition of the per-root packing loop: a successful
`packFiles` run appends, for each of its records in order, that record's
emission trace. -/
theorem packFiles_stateRecords (t : Nat) (lbl : String) (fuel : Nat) :
    ∀ (fs : List ConexFile) (s s1 : PackState),
      packFiles t lbl fuel fs s = .ok s1 →
      ∃ l : List ConexFile, stateRecords s1 = stateRecords s ++ l ∧
        ∀ g ∈ l, ∃ f ∈ fs, ∃ c : Nat, g ∈ fileEmits t f fuel f.size c := by
  intro fs
  induction fs with
  | nil =>
    intro s s1 he
    rw [packFiles] at he
    injection he with h
    subst h
    exact ⟨[], by simp, by simp⟩
  | cons f fs ih =>
    intro s s1 he
    rw [packFiles] at he
    cases hloop : packFileLoop t lbl f fuel f.size s with
    | ok s2 =>
      rw [hloop] at he
      obtain ⟨l, hl, hmem⟩ := ih s2 s1 he
      refine ⟨fileEmits t f fuel f.size s.currentLayerSize ++ l, ?_, ?_⟩
      · rw [hl, packFileLoop_stateRecords t lbl f fuel f.size s s2 hloop,
          List.append_assoc]
      · intro g hg
        rcases List.mem_append.mp hg with hg | hg
        · exact ⟨f, List.mem_cons_self f fs, s.currentLayerSize, hg⟩
        · obtain ⟨f0, hf0, c, hc⟩ := hmem g hg
          exact ⟨f0, List.mem_cons_of_mem f hf0, c, hc⟩
    | panicked => rw [hloop] at he; simp at he
    | outOfFuel => rw [hloop] at he; simp at he

/-- Record-level decomposition of the full pass-2 loop over all roots. -/
theorem packLayers_stateRecords (t fuel : Nat) :
    ∀ (lst : List (String × List ConexFile)) (s s1 : PackState),
      packLayers t fuel lst s = .ok s1 →
      ∃ l : List ConexFile, stateRecords s1 = stateRecords s ++ l ∧
        ∀ g ∈ l, ∃ pr ∈ lst, ∃ f ∈ pr.2, ∃ c : Nat,
          g ∈ fileEmits t f fuel f.size c := by
  intro lst
  induction lst with
  | nil =>
    intro s s1 he
    rw [packLayers] at he
    injection he with h
    subst h
    exact ⟨[], by simp, by simp⟩
  | cons pr rest ih =>
    obtain ⟨lbl, fs⟩ := pr
    intro s s1 he
    rw [packLayers] at he
    cases hfiles : packFiles t lbl fuel fs s with
    | ok s2 =>
      rw [hfiles] at he
      obtain ⟨l1, hl1, hmem1⟩ := packFiles_stateRecords t lbl fuel fs s s2 hfiles
      obtain ⟨l2, hl2, hmem2⟩ := ih s2 s1 he
      refine ⟨l1 ++ l2, by rw [hl2, hl1, List.append_assoc], ?_⟩
      intro g hg
      rcases List.mem_append.mp hg with hg | hg
      · obtain ⟨f, hf, c, hc⟩ := hmem1 g hg
        exact ⟨(lbl, fs), List.mem_cons_self _ rest, f, hf, c, hc⟩
      · obtain ⟨pr0, hpr0, f, hf, c, hc⟩ := hmem2 g hg
        exact ⟨pr0, List.mem_cons_of_mem _ hpr0, f, hf, c, hc⟩
    | panicked => rw [hfiles] at he; simp at he
    | outOfFuel => rw [hfiles] at he; simp at he

/-- A record of a layer of a plan is a record of the plan. -/
theorem mem_planRecords {plan : List (String × List ConexFile)}
    {pr : String × List ConexFile} (hpr : pr ∈ plan) {g : ConexFile}
    (hg : g ∈ pr.2) : g ∈ planRecords plan := by
  simp only [planRecords, List.mem_flatten, List.mem_map]
  exact ⟨pr.2, ⟨pr, hpr, rfl⟩, hg⟩

/-- Every record of a successful plan is an emitted record of some pass-1
record of some root, produced by the packing loop at that record's size. -/
theorem generate_plan_records (fuel : Nat) (p : ConexPlanner)
    (plan : List (String × List ConexFile))
    (h : generate_plan fuel p = .ok plan) :
    ∀ g ∈ planRecords plan, ∃ pr ∈ pass1 p, ∃ f ∈ pr.2, ∃ c : Nat,
      g ∈ fileEmits p.split_threshold f fuel f.size c := by
  intro g hg
  rw [generate_plan] at h
  cases hps : packLayers p.split_threshold fuel (pass1 p) ⟨[], [], 0⟩ with
  | ok s =>
    rw [hps] at h
    injection h with h
    obtain ⟨l, hl, hmem⟩ :=
      packLayers_stateRecords p.split_threshold fuel (pass1 p) ⟨[], [], 0⟩ s hps
    have hrecs : planRecords plan = l := by
      have hstate : stateRecords s = l := by
        rw [hl]; simp [stateRecords]
      subst h
      by_cases hemp : s.newLayer.isEmpty
      · rw [if_pos hemp]
        rw [← hstate]
        have : s.newLayer = [] := List.isEmpty_iff.mp hemp
        simp [planRecords, stateRecords, this]
      · rw [if_neg hemp]
        rw [← hstate]
        simp [planRecords, stateRecords]
    rw [hrecs] at hg
    exact hmem g hg
  | panicked => rw [hps] at h; simp at h
  | outOfFuel => rw [hps] at h; simp at h

/-- Pass 1 preserves well-formedness: resolved records still have unset
fragment fields. -/
theorem pass1_wf (p : ConexPlanner) (hwf : wfInput p) :
    ∀ pr ∈ pass1 p, ∀ f ∈ pr.2, f.wfRecord := by
  intro pr hpr f hf
  simp only [pass1, List.mem_map] at hpr
  obtain ⟨kv, hkv, heq⟩ := hpr
  rw [← heq] at hf
  obtain ⟨f0, hf0, hp, hrel, hsz, hin, hct, hst, hch⟩ :=
    resolveHardLinks_mem kv.2 [] f hf
  have h0 := hwf kv hkv f0 hf0
  exact ⟨by rw [hst]; exact h0.1, by rw [hch]; exact h0.2⟩

/-- C9.  A zero-byte record is skipped entirely: its packing loop exits at
once without touching the state, and consequently no record of any
successful plan has `size = 0` — zero-byte input entries are absent from the
plan. -/
theorem C9_zero_size_emits_nothing :
    (∀ (t : Nat) (lbl : String) (f : ConexFile) (fuel : Nat) (s : PackState),
       f.size = 0 → packFileLoop t lbl f fuel f.size s = .ok s) ∧
    (∀ (fuel : Nat) (p : ConexPlanner) (plan : List (String × List ConexFile)),
       generate_plan fuel p = .ok plan → ∀ pr ∈ plan, ∀ g ∈ pr.2, g.size ≠ 0) := by
  constructor
  · intro t lbl f fuel s h
    rw [h]
    exact packFileLoop_zero t lbl f fuel s
  · intro fuel p plan h pr hpr g hg hgz
    obtain ⟨pr0, hpr0, f, hf, c, hc⟩ :=
      generate_plan_records fuel p plan h g (mem_planRecords hpr hg)
    have hsz := fileEmits_size_eq p.split_threshold f fuel f.size c g hc
    have h0 : f.size = 0 := by rw [← hsz]; exact hgz
    rw [h0, fileEmits_zero] at hc
    cases hc

/-- C9 witness: the zero-byte `fileZero` leaves the empty state untouched,
and in the concrete plan for `plannerC9` (which contains `fileZero`) every
planned record has a positive size — `fileZero` is gone. -/
theorem C9_witness :
    packFileLoop 100 "r" fileZero 7 fileZero.size ⟨[], [], 0⟩ = .ok ⟨[], [], 0⟩ ∧
    fileA.size ≠ 0 := by
  constructor
  · exact C9_zero_size_emits_nothing.1 100 "r" fileZero 7 ⟨[], [], 0⟩ rfl
  · exact C9_zero_size_emits_nothing.2 200 plannerC9 [("last", [fileA])]
      (by decide) ("last", [fileA]) (by decide) fileA (by decide)

/-- C1 (amended).  The branch condition of planner.rs:116 protects records
with `hard_link_to = None` — not the hard-link aliases — from splitting:
(1) in every successful plan over well-formed input, every planned record
with `hard_link_to = None` is unfragmented (`start_offset` and `chunk_size`
unset); (2) a `None` record of positive size is appended whole to the
current layer in a single loop iteration, whatever the threshold and the
current layer size — even when this pushes the layer past the budget. -/
theorem C1_amended_none_never_fragmented :
    (∀ (p : ConexPlanner) (fuel : Nat) (plan : List (String × List ConexFile)),
       wfInput p → generate_plan fuel p = .ok plan →
       ∀ pr ∈ plan, ∀ g ∈ pr.2, g.hard_link_to = none →
         g.start_offset = none ∧ g.chunk_size = none) ∧
    (∀ (t : Nat) (lbl : String) (f : ConexFile) (fuel : Nat) (s : PackState),
       f.hard_link_to = none → f.size ≠ 0 →
       packFileLoop t lbl f (fuel + 1) f.size s =
         .ok { s with newLayer := s.newLayer ++ [f],
                      currentLayerSize := s.currentLayerSize + f.size }) := by
  constructor
  · intro p fuel plan hwf h pr hpr g hg hnone
    obtain ⟨pr0, hpr0, f, hf, c, hc⟩ :=
      generate_plan_records fuel p plan h g (mem_planRecords hpr hg)
    have hfh : f.hard_link_to = none := by
      rw [← fileEmits_hard_eq p.split_threshold f fuel f.size c g hc]
      exact hnone
    by_cases hsz0 : f.size = 0
    · rw [hsz0, fileEmits_zero] at hc
      cases hc
    · cases fuel with
      | zero =>
        cases hsz : f.size with
        | zero => exact absurd hsz hsz0
        | succ n => rw [hsz] at hc; simp [fileEmits] at hc
      | succ fuel =>
        rw [fileEmits_of_none p.split_threshold f fuel c hfh hsz0] at hc
        have heq := List.mem_singleton.mp hc
        have hwff := pass1_wf p hwf pr0 hpr0 f hf
        rw [heq]
        exact hwff
  · intro t lbl f fuel s hn hsz0
    cases hsz : f.size with
    | zero => exact absurd hsz hsz0
    | succ n =>
      rw [packFileLoop_succ, if_pos (Or.inl hn)]
      have hne : ¬ (n + 1 ≠ f.size) := by rw [hsz]; exact fun hcon => hcon rfl
      rw [if_neg hne]

/-- C1 amended witness: on `plannerC4` (well-formed input whose record
overfills the budget) every planned `None` record is unfragmented, and the
60-byte `None` record `fileOver` is appended whole to an empty layer under
budget 50, overshooting it. -/
theorem C1_witness :
    (fileOver.start_offset = none ∧ fileOver.chunk_size = none) ∧
    packFileLoop 50 "r" fileOver 1 fileOver.size ⟨[], [], 0⟩ =
      .ok ⟨[], [fileOver], 60⟩ := by
  constructor
  · exact C1_amended_none_never_fragmented.1 plannerC4 200 [("last", [fileOver])]
      (by decide) (by decide) ("last", [fileOver]) (by decide) fileOver
      (by decide) (by decide)
  · exact C1_amended_none_never_fragmented.2 50 "r" fileOver 0 ⟨[], [], 0⟩ rfl
      (by decide)

/-! ### Termination of the packing pass -/

/-- With a positive threshold, the per-record packing loop never exhausts a
fuel of `remainder + 2` (or `remainder + 1` when the layer is strictly under
the threshold): every iteration either stops or, within two steps, strictly
shrinks the remainder. -/
theorem packFileLoop_no_fuel_exhaustion (t : Nat) (ht : 0 < t) (lbl : String)
    (f : ConexFile) :
    ∀ (fuel r : Nat) (s : PackState),
      ((s.currentLayerSize < t ∧ r + 1 ≤ fuel) ∨ r + 2 ≤ fuel) →
      packFileLoop t lbl f fuel r s ≠ .outOfFuel := by
  intro fuel
  induction fuel with
  | zero => intro r s hb; rcases hb with ⟨h1, h2⟩ | h2 <;> omega
  | succ fuel ih =>
    intro r s hb
    cases r with
    | zero => rw [packFileLoop_zero]; simp
    | succ r =>
      rw [packFileLoop_succ]
      by_cases hc : f.hard_link_to = none ∨ r + 1 + s.currentLayerSize < t
      · rw [if_pos hc]; simp
      · rw [if_neg hc]
        by_cases hct : s.currentLayerSize ≤ t
        · rw [if_pos hct]
          apply ih
          left
          refine ⟨ht, ?_⟩
          by_cases hlt : s.currentLayerSize < t
          · have hchunk : 1 ≤ t - s.currentLayerSize := by omega
            rcases hb with ⟨h1, h2⟩ | h2 <;> omega
          · have hceq : s.currentLayerSize = t := by omega
            rcases hb with ⟨h1, h2⟩ | h2 <;> omega
        · rw [if_neg hct]; simp

/-- With a positive threshold, a per-root run whose fuel covers every record
never exhausts it. -/
theorem packFiles_no_fuel_exhaustion (t : Nat) (ht : 0 < t) (lbl : String)
    (fuel : Nat) :
    ∀ (fs : List ConexFile) (s : PackState),
      (∀ f ∈ fs, f.size + 2 ≤ fuel) →
      packFiles t lbl fuel fs s ≠ .outOfFuel := by
  intro fs
  induction fs with
  | nil => intro s hb; rw [packFiles]; simp
  | cons f fs ih =>
    intro s hb
    rw [packFiles]
    cases hloop : packFileLoop t lbl f fuel f.size s with
    | ok s1 =>
      exact ih s1 (fun g hg => hb g (List.mem_cons_of_mem f hg))
    | panicked => simp
    | outOfFuel =>
      exact absurd hloop (packFileLoop_no_fuel_exhaustion t ht lbl f fuel f.size s
        (Or.inr (hb f (List.mem_cons_self f fs))))

/-- With a positive threshold, the full pass-2 run never exhausts a fuel
covering every record of every root. -/
theorem packLayers_no_fuel_exhaustion (t : Nat) (ht : 0 < t) (fuel : Nat) :
    ∀ (lst : List (String × List ConexFile)) (s : PackState),
      (∀ pr ∈ lst, ∀ f ∈ pr.2, f.size + 2 ≤ fuel) →
      packLayers t fuel lst s ≠ .outOfFuel := by
  intro lst
  induction lst with
  | nil => intro s hb; rw [packLayers]; simp
  | cons pr rest ih =>
    obtain ⟨lbl, fs⟩ := pr
    intro s hb
    rw [packLayers]
    cases hfiles : packFiles t lbl fuel fs s with
    | ok s1 =>
      exact ih s1 (fun pr0 hpr0 => hb pr0 (List.mem_cons_of_mem _ hpr0))
    | panicked => simp
    | outOfFuel =>
      exact absurd hfiles (packFiles_no_fuel_exhaustion t ht lbl fuel fs s
        (fun f hf => hb (lbl, fs) (List.mem_cons_self _ rest) f hf))

/-- Any member of a list of naturals is bounded by its `foldr max 0`. -/
theorem le_foldr_max {a : Nat} : ∀ {l : List Nat}, a ∈ l → a ≤ l.foldr max 0 := by
  intro l
  induction l with
  | nil => intro h; cases h
  | cons b l ih =>
    intro h
    rw [List.foldr_cons]
    rcases List.mem_cons.mp h with rfl | h
    · exact Nat.le_max_left _ _
    · exact Nat.le_trans (ih h) (Nat.le_max_right _ _)

/-- `planFuel` covers every record that pass 2 will loop over. -/
theorem planFuel_bound (p : ConexPlanner) :
    ∀ pr ∈ pass1 p, ∀ f ∈ pr.2, f.size + 2 ≤ planFuel p := by
  intro pr hpr f hf
  simp only [pass1, List.mem_map] at hpr
  obtain ⟨kv, hkv, heq⟩ := hpr
  rw [← heq] at hf
  obtain ⟨f0, hf0, hp, hrel, hsz, hrest⟩ := resolveHardLinks_mem kv.2 [] f hf
  have h1 : f0.size ≤ (kv.2.map ConexFile.size).foldr max 0 :=
    le_foldr_max (List.mem_map_of_mem ConexFile.size hf0)
  have h2 : (kv.2.map ConexFile.size).foldr max 0 ≤
      (p.layer_to_files.map
        (fun kv2 => ((kv2.2.map ConexFile.size).foldr max 0))).foldr max 0 :=
    le_foldr_max (List.mem_map_of_mem _ hkv)
  unfold planFuel
  omega

/-- With `split_threshold = 0`, the packing loop of an alias-tagged record
of positive size never stops: each iteration cuts a zero-byte fragment,
closes the layer, and leaves the remainder unchanged. -/
theorem packFileLoop_zero_threshold (lbl : String) (f : ConexFile) (q : String)
    (hq : f.hard_link_to = some q) :
    ∀ (fuel r : Nat) (s : PackState), 0 < r → s.currentLayerSize = 0 →
      packFileLoop 0 lbl f fuel r s = .outOfFuel := by
  intro fuel
  induction fuel with
  | zero =>
    intro r s hr hcs
    cases r with
    | zero => omega
    | succ r => rfl
  | succ fuel ih =>
    intro r s hr hcs
    cases r with
    | zero => omega
    | succ r =>
      rw [packFileLoop_succ]
      have hc : ¬ (f.hard_link_to = none ∨ r + 1 + s.currentLayerSize < 0) := by
        simp [hq]
      rw [if_neg hc]
      have hct : s.currentLayerSize ≤ 0 := by omega
      rw [if_pos hct]
      exact ih _ _ (by omega) rfl

/-- C10.  With a positive `split_threshold` the packing pass always
terminates — `planFuel` iterations suffice for any input (ending in a plan
or in the underflow panic, never by running out of fuel).  With
`split_threshold = 0` it can loop forever: on `plannerC10` (one alias-tagged
1-byte record) no amount of fuel completes the run, the loop keeps emitting
zero-byte fragments without shrinking the remainder. -/
theorem C10_termination :
    (∀ p : ConexPlanner, 0 < p.split_threshold →
       generate_plan (planFuel p) p ≠ .outOfFuel) ∧
    (∀ fuel : Nat, generate_plan fuel plannerC10 = .outOfFuel) := by
  constructor
  · intro p ht
    rw [generate_plan]
    cases hps : packLayers p.split_threshold (planFuel p) (pass1 p) ⟨[], [], 0⟩ with
    | ok s => simp
    | panicked => simp
    | outOfFuel =>
      exact absurd hps (packLayers_no_fuel_exhaustion p.split_threshold ht
        (planFuel p) (pass1 p) ⟨[], [], 0⟩ (planFuel_bound p))
  · intro fuel
    have h := packFileLoop_zero_threshold "r" fileLoop "q" rfl fuel
      fileLoop.size ⟨[], [], 0⟩ (by decide) rfl
    have h2 : packFiles 0 "r" fuel [fileLoop] ⟨[], [], 0⟩ = .outOfFuel := by
      rw [packFiles, h]
    have h3 : packLayers 0 fuel [("r", [fileLoop])] ⟨[], [], 0⟩ = .outOfFuel := by
      rw [packLayers, h2]
    have hp1 : pass1 plannerC10 = [("r", [fileLoop])] := by decide
    rw [generate_plan, hp1]
    rw [show plannerC10.split_threshold = 0 from rfl]
    rw [h3]

/-- C10 witness: `plannerC7` has a positive threshold and its run with
`planFuel` fuel does not exhaust it. -/
theorem C10_witness :
    0 < plannerC7.split_threshold ∧
    generate_plan (planFuel plannerC7) plannerC7 ≠ .outOfFuel :=
  ⟨by decide, C10_termination.1 plannerC7 (by decide)⟩

/-! ### Budget accounting (C4) -/

/-- `someBytes` distributes over append. -/
theorem someBytes_append (a b : List ConexFile) :
    someBytes (a ++ b) = someBytes a + someBytes b := by
  simp [someBytes, List.filter_append]

/-- `someBytes` of a singleton. -/
theorem someBytes_singleton (g : ConexFile) :
    someBytes [g] = if g.hard_link_to.isSome then recordBytes g else 0 := by
  by_cases hg : g.hard_link_to.isSome <;>
    simp [someBytes, List.filter_singleton, hg]

/-- `someBytes` of the empty layer. -/
theorem someBytes_nil : someBytes [] = 0 := rfl

/-- A layer's bytes split into alias bytes and non-alias bytes. -/
theorem layerBytes_split (l : List ConexFile) :
    layerBytes l = someBytes l + noneBytes l := by
  induction l with
  | nil => rfl
  | cons g l ih =>
    cases hg : g.hard_link_to with
    | none =>
      simp [layerBytes, someBytes, noneBytes, List.filter_cons, hg] at ih ⊢
      omega
    | some q =>
      simp [layerBytes, someBytes, noneBytes, List.filter_cons, hg] at ih ⊢
      omega

/-- Budget invariant of one record's packing loop: alias bytes of every
completed layer stay within the threshold, and alias bytes of the running
layer stay below both the running byte count and the threshold. -/
theorem packFileLoop_someBytes (t : Nat) (lbl : String) (f : ConexFile)
    (hwf : f.wfRecord) :
    ∀ (fuel r : Nat) (s s1 : PackState),
      packFileLoop t lbl f fuel r s = .ok s1 →
      (∀ pr ∈ s.plan, someBytes pr.2 ≤ t) →
      someBytes s.newLayer ≤ s.currentLayerSize →
      someBytes s.newLayer ≤ t →
      (∀ pr ∈ s1.plan, someBytes pr.2 ≤ t) ∧
        someBytes s1.newLayer ≤ s1.currentLayerSize ∧
        someBytes s1.newLayer ≤ t := by
  intro fuel
  induction fuel with
  | zero =>
    intro r s s1 he h1 h2 h3
    cases r with
    | zero =>
      rw [packFileLoop_zero] at he
      injection he with h
      subst h
      exact ⟨h1, h2, h3⟩
    | succ r => simp [packFileLoop] at he
  | succ fuel ih =>
    intro r s s1 he h1 h2 h3
    cases r with
    | zero =>
      rw [packFileLoop_zero] at he
      injection he with h
      subst h
      exact ⟨h1, h2, h3⟩
    | succ r =>
      rw [packFileLoop_succ] at he
      by_cases hc : f.hard_link_to = none ∨ r + 1 + s.currentLayerSize < t
      · rw [if_pos hc] at he
        injection he with h
        subst h
        have hx : (if r + 1 ≠ f.size then
            { f with chunk_size := some (r + 1),
                     start_offset := some (f.size - (r + 1)) }
          else f).hard_link_to = f.hard_link_to := by
          by_cases hr : r + 1 ≠ f.size <;> simp [hr]
        have hsb : someBytes (s.newLayer ++
            [if r + 1 ≠ f.size then
               { f with chunk_size := some (r + 1),
                        start_offset := some (f.size - (r + 1)) }
             else f]) ≤ someBytes s.newLayer + (r + 1) := by
          rw [someBytes_append, someBytes_singleton, hx]
          by_cases hn : f.hard_link_to.isSome
          · rw [if_pos hn]
            have hrb : recordBytes (if r + 1 ≠ f.size then
                { f with chunk_size := some (r + 1),
                         start_offset := some (f.size - (r + 1)) }
              else f) = r + 1 := by
              by_cases hr : r + 1 ≠ f.size
              · simp [hr, recordBytes]
              · have hsz : r + 1 = f.size := not_not.mp hr
                simp [hr, recordBytes, hwf.2, ← hsz]
            rw [hrb]
          · rw [if_neg hn]
            omega
        have hfit2 : f.hard_link_to.isSome →
            someBytes s.newLayer + (r + 1) ≤ t := by
          intro hn
          rcases hc with hc | hc
          · rw [hc] at hn
            simp at hn
          · omega
        refine ⟨h1, ?_, ?_⟩
        · dsimp only
          by_cases hn : f.hard_link_to.isSome
          · omega
          · have hz : someBytes (s.newLayer ++
                [if r + 1 ≠ f.size then
                   { f with chunk_size := some (r + 1),
                            start_offset := some (f.size - (r + 1)) }
                 else f]) = someBytes s.newLayer := by
              rw [someBytes_append, someBytes_singleton, hx, if_neg hn]
              exact Nat.add_zero _
            omega
        · dsimp only
          by_cases hn : f.hard_link_to.isSome
          · exact Nat.le_trans hsb (hfit2 hn)
          · have hz : someBytes (s.newLayer ++
                [if r + 1 ≠ f.size then
                   { f with chunk_size := some (r + 1),
                            start_offset := some (f.size - (r + 1)) }
                 else f]) = someBytes s.newLayer := by
              rw [someBytes_append, someBytes_singleton, hx, if_neg hn]
              exact Nat.add_zero _
            omega
      · rw [if_neg hc] at he
        rw [not_or] at hc
        obtain ⟨hn, hfit⟩ := hc
        by_cases hct : s.currentLayerSize ≤ t
        · rw [if_pos hct] at he
          apply ih _ _ _ he
          · intro pr hpr
            rcases List.mem_append.mp hpr with hpr | hpr
            · exact h1 pr hpr
            · rw [List.mem_singleton.mp hpr]
              rw [someBytes_append, someBytes_singleton]
              have hisome : f.hard_link_to.isSome = true :=
                Option.isSome_iff_ne_none.mpr hn
              dsimp only
              rw [hisome]
              simp only [if_true]
              have hrb : recordBytes { f with
                  start_offset := some (f.size - (r + 1)),
                  chunk_size := some (t - s.currentLayerSize) } =
                  t - s.currentLayerSize := rfl
              rw [hrb]
              omega
          · exact Nat.le_refl 0
          · exact Nat.zero_le t
        · rw [if_neg hct] at he
          simp at he

/-- Budget invariant lifted over one root's record list. -/
theorem packFiles_someBytes (t : Nat) (lbl : String) (fuel : Nat) :
    ∀ (fs : List ConexFile) (s s1 : PackState),
      (∀ f ∈ fs, f.wfRecord) →
      packFiles t lbl fuel fs s = .ok s1 →
      (∀ pr ∈ s.plan, someBytes pr.2 ≤ t) →
      someBytes s.newLayer ≤ s.currentLayerSize →
      someBytes s.newLayer ≤ t →
      (∀ pr ∈ s1.plan, someBytes pr.2 ≤ t) ∧
        someBytes s1.newLayer ≤ s1.currentLayerSize ∧
        someBytes s1.newLayer ≤ t := by
  intro fs
  induction fs with
  | nil =>
    intro s s1 hwf he h1 h2 h3
    rw [packFiles] at he
    injection he with h
    subst h
    exact ⟨h1, h2, h3⟩
  | cons f fs ih =>
    intro s s1 hwf he h1 h2 h3
    rw [packFiles] at he
    cases hloop : packFileLoop t lbl f fuel f.size s with
    | ok s2 =>
      rw [hloop] at he
      obtain ⟨g1, g2, g3⟩ := packFileLoop_someBytes t lbl f
        (hwf f (List.mem_cons_self f fs)) fuel f.size s s2 hloop h1 h2 h3
      exact ih s2 s1 (fun g hg => hwf g (List.mem_cons_of_mem f hg)) he g1 g2 g3
    | panicked => rw [hloop] at he; simp at he
    | outOfFuel => rw [hloop] at he; simp at he

/-- Budget invariant lifted over all roots. -/
theorem packLayers_someBytes (t fuel : Nat) :
    ∀ (lst : List (String × List ConexFile)) (s s1 : PackState),
      (∀ pr ∈ lst, ∀ f ∈ pr.2, f.wfRecord) →
      packLayers t fuel lst s = .ok s1 →
      (∀ pr ∈ s.plan, someBytes pr.2 ≤ t) →
      someBytes s.newLayer ≤ s.currentLayerSize →
      someBytes s.newLayer ≤ t →
      (∀ pr ∈ s1.plan, someBytes pr.2 ≤ t) ∧
        someBytes s1.newLayer ≤ s1.currentLayerSize ∧
        someBytes s1.newLayer ≤ t := by
  intro lst
  induction lst with
  | nil =>
    intro s s1 hwf he h1 h2 h3
    rw [packLayers] at he
    injection he with h
    subst h
    exact ⟨h1, h2, h3⟩
  | cons pr rest ih =>
    obtain ⟨lbl, fs⟩ := pr
    intro s s1 hwf he h1 h2 h3
    rw [packLayers] at he
    cases hfiles : packFiles t lbl fuel fs s with
    | ok s2 =>
      rw [hfiles] at he
      obtain ⟨g1, g2, g3⟩ := packFiles_someBytes t lbl fuel fs s s2
        (fun g hg => hwf (lbl, fs) (List.mem_cons_self _ rest) g hg)
        hfiles h1 h2 h3
      exact ih s2 s1 (fun pr0 hpr0 => hwf pr0 (List.mem_cons_of_mem _ hpr0))
        he g1 g2 g3
    | panicked => rw [hfiles] at he; simp at he
    | outOfFuel => rw [hfiles] at he; simp at he

/-- C4 (amended).  In every successful plan over well-formed input, every
output layer's alias bytes (records with `hard_link_to = Some`) stay within
`split_threshold`, so each layer's total bytes exceed the threshold by at
most its `hard_link_to = None` bytes: any overflow is due solely to
non-alias records appended whole — the opposite of the claimed exception
for hard-link-alias records. -/
theorem C4_amended_overflow_only_from_none (p : ConexPlanner) (fuel : Nat)
    (plan : List (String × List ConexFile)) (hwf : wfInput p)
    (h : generate_plan fuel p = .ok plan) :
    ∀ pr ∈ plan, someBytes pr.2 ≤ p.split_threshold ∧
      layerBytes pr.2 ≤ p.split_threshold + noneBytes pr.2 := by
  have hmain : ∀ pr ∈ plan, someBytes pr.2 ≤ p.split_threshold := by
    rw [generate_plan] at h
    cases hps : packLayers p.split_threshold fuel (pass1 p) ⟨[], [], 0⟩ with
    | ok s =>
      rw [hps] at h
      injection h with h
      obtain ⟨g1, g2, g3⟩ := packLayers_someBytes p.split_threshold fuel
        (pass1 p) ⟨[], [], 0⟩ s (pass1_wf p hwf) hps
        (by intro pr hpr; cases hpr) (Nat.le_refl 0)
        (Nat.zero_le p.split_threshold)
      subst h
      intro pr hpr
      by_cases hemp : s.newLayer.isEmpty
      · rw [if_pos hemp] at hpr
        exact g1 pr hpr
      · rw [if_neg hemp] at hpr
        rcases List.mem_append.mp hpr with hpr | hpr
        · exact g1 pr hpr
        · rw [List.mem_singleton.mp hpr]
          exact g3
    | panicked => rw [hps] at h; simp at h
    | outOfFuel => rw [hps] at h; simp at h
  intro pr hpr
  refine ⟨hmain pr hpr, ?_⟩
  have := hmain pr hpr
  rw [layerBytes_split]
  omega

/-- C4 amended witness: on `plannerC4` the single output layer (60 bytes)
indeed holds at most `50 + noneBytes` bytes, its alias bytes being 0. -/
theorem C4_witness :
    someBytes [fileOver] ≤ plannerC4.split_threshold ∧
    layerBytes [fileOver] ≤ plannerC4.split_threshold + noneBytes [fileOver] :=
  C4_amended_overflow_only_from_none plannerC4 200 [("last", [fileOver])]
    (by decide) (by decide) ("last", [fileOver]) (by decide)

/-! ### Fragment tiling (C5) -/

/-- A list covering `[a, f.size)` has chunk sizes summing to `f.size - a`. -/
theorem covers_sum (f : ConexFile) :
    ∀ (l : List ConexFile) (a : Nat), covers f a l = true →
      a + (l.map (fun g => g.chunk_size.getD 0)).sum = f.size := by
  intro l
  induction l with
  | nil =>
    intro a h
    simp only [covers, beq_iff_eq] at h
    simp [h]
  | cons g gs ih =>
    intro a h
    rw [covers] at h
    cases hch : g.chunk_size with
    | none => rw [hch] at h; simp at h
    | some c =>
      rw [hch] at h
      simp only [Bool.and_eq_true, beq_iff_eq, decide_eq_true_eq] at h
      obtain ⟨hst, hle, hcov⟩ := h
      have hih := ih (a + c) hcov
      simp only [List.map_cons, List.sum_cons, hch, Option.getD_some]
      omega

/-- Tail of the splitting loop: once the layer has been reset (running size
0), the records emitted for the rest of an alias-tagged record's remainder
either tile `[f.size - r, f.size)` exactly, or the remainder is still the
whole file and it is emitted as the single whole record. -/
theorem packFileLoop_covers_tail (t : Nat) (ht : 0 < t) (lbl : String)
    (f : ConexFile) :
    ∀ (fuel r : Nat) (s s1 : PackState), 0 < r → r ≤ f.size →
      s.currentLayerSize = 0 →
      packFileLoop t lbl f fuel r s = .ok s1 →
      covers f (f.size - r) (fileEmits t f fuel r 0) = true ∨
        (r = f.size ∧ fileEmits t f fuel r 0 = [f]) := by
  intro fuel
  induction fuel with
  | zero =>
    intro r s s1 hr hrs hcs he
    cases r with
    | zero => omega
    | succ r => simp [packFileLoop] at he
  | succ fuel ih =>
    intro r s s1 hr hrs hcs he
    cases r with
    | zero => omega
    | succ r =>
      rw [packFileLoop_succ, hcs] at he
      rw [fileEmits_succ]
      by_cases hcnd : f.hard_link_to = none ∨ r + 1 + 0 < t
      · rw [if_pos hcnd] at he ⊢
        by_cases hrs2 : r + 1 = f.size
        · right
          refine ⟨hrs2, ?_⟩
          have hne : ¬ (r + 1 ≠ f.size) := fun hcon => hcon hrs2
          rw [if_neg hne]
        · left
          have hne : r + 1 ≠ f.size := hrs2
          rw [if_pos hne]
          simp only [covers, Bool.and_eq_true, beq_iff_eq, decide_eq_true_eq,
            true_and, and_true]
          omega
      · rw [if_neg hcnd] at he ⊢
        rw [not_or] at hcnd
        obtain ⟨hn, hnfit⟩ := hcnd
        rw [if_pos (Nat.zero_le t)] at he ⊢
        simp only [Nat.sub_zero] at he ⊢
        have hge : t ≤ r + 1 := by omega
        by_cases hr2 : r + 1 - t = 0
        · rw [hr2] at he ⊢
          rw [fileEmits_zero]
          left
          simp only [covers, Bool.and_eq_true, beq_iff_eq, decide_eq_true_eq,
            true_and, and_true]
          omega
        · rcases ih (r + 1 - t) _ s1 (by omega) (by omega) rfl he with
            hcov | ⟨hreq, hemits⟩
          · left
            have hcov2 : covers f (f.size - (r + 1) + t)
                (fileEmits t f fuel (r + 1 - t) 0) = true := by
              have harith : f.size - (r + 1) + t = f.size - (r + 1 - t) := by
                omega
              rw [harith]
              exact hcov
            simp only [covers, Bool.and_eq_true, beq_iff_eq, decide_eq_true_eq,
              hcov2, true_and, and_true]
            omega
          · exfalso
            omega

/-- C5 (amended).  A successful packing of one record `f` of positive size
appends exactly its emission trace to the state, and that trace is: the
whole record alone (fit at once), or fragments that tile `[0, f.size)`
exactly, or — the one exception the claim misses — a zero-byte fragment
followed by the whole unfragmented record (when the running layer is exactly
full at `f`'s first iteration and the remainder then fits).  In the tiling
case the `chunk_size` values sum to exactly `f.size`; in the exception case
the fragments alone do not reproduce the file. -/
theorem C5_amended_fragments_tile (t : Nat) (lbl : String) (f : ConexFile)
    (fuel : Nat) (s s1 : PackState) (hsz : 0 < f.size)
    (he : packFileLoop t lbl f fuel f.size s = .ok s1) :
    stateRecords s1 =
      stateRecords s ++ fileEmits t f fuel f.size s.currentLayerSize ∧
    (fileEmits t f fuel f.size s.currentLayerSize = [f] ∨
     covers f 0 (fileEmits t f fuel f.size s.currentLayerSize) = true ∨
     fileEmits t f fuel f.size s.currentLayerSize = [mkFrag f 0 0, f]) ∧
    (∀ l : List ConexFile, covers f 0 l = true →
      (l.map (fun g => g.chunk_size.getD 0)).sum = f.size) := by
  refine ⟨packFileLoop_stateRecords t lbl f fuel f.size s s1 he, ?_, ?_⟩
  · cases fuel with
    | zero =>
      cases hfs : f.size with
      | zero => omega
      | succ n => rw [hfs] at he; simp [packFileLoop] at he
    | succ fuel =>
      cases hfs : f.size with
      | zero => omega
      | succ n =>
        rw [hfs] at he
        rw [packFileLoop_succ] at he
        rw [fileEmits_succ]
        by_cases hcnd : f.hard_link_to = none ∨ n + 1 + s.currentLayerSize < t
        · rw [if_pos hcnd] at he ⊢
          have hne : ¬ (n + 1 ≠ f.size) := by rw [hfs]; exact fun hcon => hcon rfl
          rw [if_neg hne]
          exact Or.inl rfl
        · rw [if_neg hcnd] at he ⊢
          rw [not_or] at hcnd
          obtain ⟨hn, hnfit⟩ := hcnd
          by_cases hct : s.currentLayerSize ≤ t
          · rw [if_pos hct] at he ⊢
            by_cases hr2 : n + 1 - (t - s.currentLayerSize) = 0
            · rw [hr2] at he ⊢
              rw [fileEmits_zero]
              right; left
              have hch : t - s.currentLayerSize = n + 1 := by omega
              have hst0 : f.size - (n + 1) = 0 := by omega
              rw [hst0, hch]
              simp only [covers, Bool.and_eq_true, beq_iff_eq,
                decide_eq_true_eq, true_and, and_true]
              omega
            · by_cases ht0 : t = 0
              · exfalso
                obtain ⟨q, hq⟩ := Option.ne_none_iff_exists'.mp hn
                subst ht0
                rw [packFileLoop_zero_threshold lbl f q hq fuel
                  (n + 1 - (0 - s.currentLayerSize)) _ (by omega) rfl] at he
                simp at he
              · rcases packFileLoop_covers_tail t (by omega) lbl f fuel
                  (n + 1 - (t - s.currentLayerSize)) _ s1 (by omega) (by omega)
                  rfl he with hcov | ⟨hreq, hemits⟩
                · right; left
                  have hcov2 : covers f (t - s.currentLayerSize)
                      (fileEmits t f fuel (n + 1 - (t - s.currentLayerSize)) 0) =
                      true := by
                    have harith : t - s.currentLayerSize =
                        f.size - (n + 1 - (t - s.currentLayerSize)) := by omega
                    nth_rewrite 1 [harith]
                    exact hcov
                  have hst0 : f.size - (n + 1) = 0 := by omega
                  rw [hst0]
                  simp only [covers, Bool.and_eq_true, beq_iff_eq,
                    decide_eq_true_eq, true_and, and_true]
                  constructor <;> first | simpa using hcov2 | omega
                · right; right
                  have hch0 : t - s.currentLayerSize = 0 := by omega
                  rw [hemits, hch0]
                  simp [mkFrag, hfs]
          · rw [if_neg hct] at he
            simp at he
  · intro l hl
    have h0 := covers_sum f l 0 hl
    omega

/-- C5 amended witness: packing the alias-tagged 100-byte record at budget
30 from an empty layer emits fragments that tile `[0, 100)` and whose chunk
sizes sum to exactly 100. -/
theorem C5_witness :
    covers fileBigTagged 0 (fileEmits 30 fileBigTagged 102 fileBigTagged.size 0) =
      true ∧
    ((fileEmits 30 fileBigTagged 102 fileBigTagged.size 0).map
      (fun g => g.chunk_size.getD 0)).sum = fileBigTagged.size := by
  have h := C5_amended_fragments_tile 30 "r" fileBigTagged 102 ⟨[], [], 0⟩
    ⟨[("r", [mkFrag fileBigTagged 0 30]), ("r", [mkFrag fileBigTagged 30 30]),
      ("r", [mkFrag fileBigTagged 60 30])], [mkFrag fileBigTagged 90 10], 10⟩
    (by decide) (by decide)
  have hcov : covers fileBigTagged 0
      (fileEmits 30 fileBigTagged 102 fileBigTagged.size 0) = true := by
    rcases h.2.1 with h1 | h2 | h3
    · exact absurd h1 (by decide)
    · exact h2
    · exact absurd h3 (by decide)
  exact ⟨hcov, h.2.2 _ hcov⟩

/-! ### The split run of an alias-tagged record (C3) -/

/-- Full characterization of the splitting loop for an alias-tagged record
entering an empty running layer: the remainder `r` is cut into `r / t` full
`t`-byte fragments, each closing a singleton layer, and a final `r % t`-byte
fragment left in the running layer when `t` does not divide `r`. -/
theorem packFileLoop_split_run (t : Nat) (ht : 0 < t) (lbl : String)
    (f : ConexFile) (hsz : t < f.size) (hh : f.hard_link_to ≠ none) :
    ∀ (fuel r : Nat) (plan0 : List (String × List ConexFile)),
      0 < r → r ≤ f.size → r + 2 ≤ fuel →
      packFileLoop t lbl f fuel r ⟨plan0, [], 0⟩ =
        .ok ⟨plan0 ++ (List.range (r / t)).map
              (fun i => (lbl, [mkFrag f (f.size - r + i * t) t])),
            if r % t = 0 then []
            else [mkFrag f (f.size - r % t) (r % t)],
            r % t⟩ := by
  intro fuel
  induction fuel with
  | zero => intro r plan0 hr hrs hfuel; omega
  | succ fuel ih =>
    intro r plan0 hr hrs hfuel
    cases r with
    | zero => omega
    | succ r =>
      simp only [packFileLoop_succ]
      by_cases hge : t ≤ r + 1
      · have hcnd : ¬ (f.hard_link_to = none ∨ r + 1 + 0 < t) := by
          rw [not_or]
          exact ⟨hh, by omega⟩
        rw [if_neg hcnd, if_pos (Nat.zero_le t)]
        simp only [Nat.sub_zero, List.nil_append]
        by_cases hr0 : r + 1 - t = 0
        · rw [hr0, packFileLoop_zero]
          have hrt : r + 1 = t := by omega
          rw [← hrt, Nat.div_self (show 0 < r + 1 by omega), Nat.mod_self]
          rw [show List.range 1 = [0] from rfl]
          simp [mkFrag]
        · show packFileLoop t lbl f fuel (r + 1 - t)
            ⟨plan0 ++ [(lbl, [mkFrag f (f.size - (r + 1)) t])], [], 0⟩ = _
          rw [ih (r + 1 - t) (plan0 ++ [(lbl, [mkFrag f (f.size - (r + 1)) t])])
            (by omega) (by omega) (by omega)]
          have hmod : (r + 1 - t) % t = (r + 1) % t := by
            have h0 : r + 1 - t + t = r + 1 := by omega
            calc (r + 1 - t) % t = (r + 1 - t + t) % t :=
                (Nat.add_mod_right _ _).symm
              _ = (r + 1) % t := by rw [h0]
          have hdiv : (r + 1) / t = (r + 1 - t) / t + 1 := by
            have h0 : r + 1 - t + t = r + 1 := by omega
            calc (r + 1) / t = (r + 1 - t + t) / t := by rw [h0]
              _ = (r + 1 - t) / t + 1 := Nat.add_div_right _ ht
          rw [hdiv, ← hmod]
          rw [List.range_succ_eq_map, List.map_cons, List.map_map,
            List.append_assoc, List.singleton_append]
          congr 1
          congr 1
          refine congrArg (fun z => plan0 ++ z) ?_
          refine congrArg₂ List.cons ?_ ?_
          · simp
          · refine List.map_congr_left ?_
            intro j hj
            have hoff : f.size - (r + 1 - t) + j * t =
                f.size - (r + 1) + (j + 1) * t := by
              rw [Nat.succ_mul]
              generalize j * t = J
              omega
            simp only [Function.comp_apply, Nat.succ_eq_add_one]
            rw [hoff]
      · have hcnd : f.hard_link_to = none ∨ r + 1 + 0 < t := Or.inr (by omega)
        rw [if_pos hcnd]
        have hne : r + 1 ≠ f.size := by omega
        rw [if_pos hne]
        have hdiv0 : (r + 1) / t = 0 := Nat.div_eq_of_lt (by omega)
        have hmod0 : (r + 1) % t = r + 1 := Nat.mod_eq_of_lt (by omega)
        rw [hdiv0, hmod0]
        simp [mkFrag]

/-- C3 (amended).  A one-root input holding a single record tagged
`hard_link_to = Some` (the repository's `test_fragment_layers` fixture
shape) whose size exceeds a positive threshold is split into exactly
`ceil(size / t)` fragments: one singleton layer per full `t`-byte fragment,
plus a final `"last"` layer holding the leftover fragment when `t` does not
divide the size.  The plan is exactly `expectedSplitPlan`, its length is
`ceil(size / t) = (size + t - 1) / t`, and every layer holds exactly one
record.  (A lone record with `hard_link_to = None` — what pass 1 produces
for a genuinely fresh single file — is never split at all, see the
counterexample.) -/
theorem C3_amended_tagged_file_split (t fuel : Nat) (lbl q : String)
    (f : ConexFile) (ht : 0 < t) (hsz : t < f.size)
    (hh : f.hard_link_to = some q) (hfuel : f.size + 2 ≤ fuel) :
    generate_plan fuel ⟨[(lbl, [f])], t⟩ = .ok (expectedSplitPlan t lbl f) ∧
    (expectedSplitPlan t lbl f).length = (f.size + t - 1) / t ∧
    ∀ pr ∈ expectedSplitPlan t lbl f, pr.2.length = 1 := by
  have hh2 : f.hard_link_to ≠ none := by rw [hh]; exact Option.some_ne_none q
  have hrun := packFileLoop_split_run t ht lbl f hsz hh2 fuel f.size []
    (by omega) (Nat.le_refl _) hfuel
  have hk := Nat.div_add_mod f.size t
  have hmlt : f.size % t < t := Nat.mod_lt _ ht
  refine ⟨?_, ?_, ?_⟩
  · have hfiles : packFiles t lbl fuel [f] ⟨[], [], 0⟩ =
        .ok ⟨[] ++ (List.range (f.size / t)).map
              (fun i => (lbl, [mkFrag f (f.size - f.size + i * t) t])),
            if f.size % t = 0 then []
            else [mkFrag f (f.size - f.size % t) (f.size % t)],
            f.size % t⟩ := by
      rw [packFiles, hrun]
      rfl
    have hlayers : packLayers t fuel [(lbl, [f])] ⟨[], [], 0⟩ =
        .ok ⟨[] ++ (List.range (f.size / t)).map
              (fun i => (lbl, [mkFrag f (f.size - f.size + i * t) t])),
            if f.size % t = 0 then []
            else [mkFrag f (f.size - f.size % t) (f.size % t)],
            f.size % t⟩ := by
      rw [packLayers, hfiles]
      rfl
    have hp : pass1 ⟨[(lbl, [f])], t⟩ = [(lbl, [f])] := by
      simp [pass1, resolveHardLinks, lookupInode]
    rw [generate_plan]
    dsimp only
    rw [hp, hlayers]
    have hleft0 : f.size - f.size % t = f.size / t * t := by
      rw [Nat.mul_comm]
      generalize hM : t * (f.size / t) = M at hk ⊢
      omega
    by_cases hm : f.size % t = 0
    · rw [if_pos hm]
      dsimp only
      rw [expectedSplitPlan, if_pos hm, List.append_nil, List.nil_append]
      rw [show (([] : List ConexFile).isEmpty) = true from rfl]
      simp [mkFrag]
    · rw [if_neg hm]
      dsimp only
      rw [show ([mkFrag f (f.size - f.size % t) (f.size % t)].isEmpty) = false
        from rfl]
      rw [expectedSplitPlan, if_neg hm, List.nil_append]
      simp only [Bool.false_eq_true, if_false, hleft0, Nat.sub_self,
        Nat.zero_add, mkFrag]
  · rw [expectedSplitPlan]
    rw [List.length_append, List.length_map, List.length_range]
    by_cases hm : f.size % t = 0
    · rw [if_pos hm]
      have hnum : f.size + t - 1 = t * (f.size / t) + (t - 1) := by
        generalize hM : t * (f.size / t) = M at hk ⊢
        omega
      rw [hnum, Nat.mul_add_div ht,
        Nat.div_eq_of_lt (show t - 1 < t by omega)]
      simp
    · rw [if_neg hm]
      have hnum : f.size + t - 1 = t * (f.size / t + 1) + (f.size % t - 1) := by
        rw [Nat.mul_succ]
        generalize hM : t * (f.size / t) = M at hk ⊢
        omega
      rw [hnum, Nat.mul_add_div ht,
        Nat.div_eq_of_lt (show f.size % t - 1 < t by omega)]
      simp
  · intro pr hpr
    rw [expectedSplitPlan] at hpr
    rcases List.mem_append.mp hpr with hpr | hpr
    · obtain ⟨i, hi, heq⟩ := List.mem_map.mp hpr
      rw [← heq]
      rfl
    · by_cases hm : f.size % t = 0
      · rw [if_pos hm] at hpr
        cases hpr
      · rw [if_neg hm] at hpr
        rw [List.mem_singleton.mp hpr]
        rfl

/-- C3 amended witness: the `test_fragment_layers` fixture (tagged 100-byte
record, budget 50) yields exactly the 2-layer plan of 50-byte fragments at
offsets 0 and 50. -/
theorem C3_witness :
    generate_plan 102 plannerC3Tagged = .ok (expectedSplitPlan 50 "r" fileBigTagged) ∧
    expectedSplitPlan 50 "r" fileBigTagged =
      [("r", [mkFrag fileBigTagged 0 50]), ("r", [mkFrag fileBigTagged 50 50])] ∧
    (expectedSplitPlan 50 "r" fileBigTagged).length = 2 := by
  have h := C3_amended_tagged_file_split 50 102 "r" "" fileBigTagged
    (by omega) (by decide) rfl (by decide)
  exact ⟨h.1, by decide, by decide⟩

/-! ### Pass 1 canonical-alias characterization (C6) -/

/-- Pass 1, generalized: provided the inode map agrees with the prefix of
records already processed (first occurrence wins), the `k`-th output record
is the `k`-th input record, with `hard_link_to` overwritten by the relative
path of the first earlier record (prefix included) sharing its inode — and
left untouched when there is none. -/
theorem resolveHardLinks_get :
    ∀ (fs : List ConexFile) (m : List (Nat × String)) (pre : List ConexFile),
      (∀ i : Nat, lookupInode m i =
        (pre.find? (fun g => g.inode == i)).map ConexFile.relative_path) →
      (resolveHardLinks fs m).length = fs.length ∧
      ∀ (k : Nat) (f0 : ConexFile), fs[k]? = some f0 →
        (resolveHardLinks fs m)[k]? =
          some (match (pre ++ fs.take k).find? (fun g => g.inode == f0.inode) with
            | some g => { f0 with hard_link_to := some g.relative_path }
            | none => f0) := by
  intro fs
  induction fs with
  | nil =>
    intro m pre hinv
    refine ⟨rfl, ?_⟩
    intro k f0 hf0
    simp at hf0
  | cons f fs ih =>
    intro m pre hinv
    cases hm : lookupInode m f.inode with
    | some p =>
      have hres : resolveHardLinks (f :: fs) m =
          { f with hard_link_to := some p } :: resolveHardLinks fs m := by
        rw [resolveHardLinks, hm]
      have hinv2 : ∀ i : Nat, lookupInode m i =
          ((pre ++ [f]).find? (fun g => g.inode == i)).map
            ConexFile.relative_path := by
        intro i
        rw [List.find?_append]
        cases hp : pre.find? (fun g => g.inode == i) with
        | some g => rw [hinv i, hp]; rfl
        | none =>
          by_cases hif : f.inode = i
          · exfalso
            rw [← hif] at hp
            have h0 := hinv f.inode
            rw [hm, hp] at h0
            simp at h0
          · rw [hinv i, hp]
            simp [List.find?_cons, List.find?_nil, hif]
      obtain ⟨hlen, hget⟩ := ih m (pre ++ [f]) hinv2
      refine ⟨by rw [hres]; simp [hlen], ?_⟩
      intro k f0 hf0
      cases k with
      | zero =>
        rw [List.getElem?_cons_zero] at hf0
        injection hf0 with hf0
        rw [hres, List.getElem?_cons_zero]
        rw [List.take_zero, List.append_nil]
        have h0 := hinv f.inode
        rw [hm] at h0
        rw [← hf0]
        cases hp : pre.find? (fun g => g.inode == f.inode) with
        | some g =>
          rw [hp] at h0
          injection h0 with hpg
          rw [hpg]
        | none => rw [hp] at h0; simp at h0
      | succ k =>
        rw [List.getElem?_cons_succ] at hf0
        rw [hres, List.getElem?_cons_succ, hget k f0 hf0]
        simp only [List.take_succ_cons, List.append_assoc, List.cons_append,
          List.nil_append]
    | none =>
      have hres : resolveHardLinks (f :: fs) m =
          f :: resolveHardLinks fs ((f.inode, f.relative_path) :: m) := by
        rw [resolveHardLinks, hm]
      have hinv2 : ∀ i : Nat,
          lookupInode ((f.inode, f.relative_path) :: m) i =
          ((pre ++ [f]).find? (fun g => g.inode == i)).map
            ConexFile.relative_path := by
        intro i
        rw [List.find?_append, lookupInode]
        by_cases hif : f.inode = i
        · rw [if_pos hif]
          rw [← hif]
          have h0 := hinv f.inode
          rw [hm] at h0
          cases hp : pre.find? (fun g => g.inode == f.inode) with
          | some g => rw [hp] at h0; simp at h0
          | none =>
            simp [List.find?_cons, List.find?_nil]
        · rw [if_neg hif, hinv i]
          simp [List.find?_cons, List.find?_nil, hif]
      obtain ⟨hlen, hget⟩ := ih _ (pre ++ [f]) hinv2
      refine ⟨by rw [hres]; simp [hlen], ?_⟩
      intro k f0 hf0
      cases k with
      | zero =>
        rw [List.getElem?_cons_zero] at hf0
        injection hf0 with hf0
        rw [hres, List.getElem?_cons_zero]
        rw [List.take_zero, List.append_nil]
        have h0 := hinv f.inode
        rw [hm] at h0
        rw [← hf0]
        cases hp : pre.find? (fun g => g.inode == f.inode) with
        | some g => rw [hp] at h0; simp at h0
        | none => rfl
      | succ k =>
        rw [List.getElem?_cons_succ] at hf0
        rw [hres, List.getElem?_cons_succ, hget k f0 hf0]
        simp only [List.take_succ_cons, List.append_assoc, List.cons_append,
          List.nil_append]

/-- C6.  After pass 1 of `generate_plan`, within each root whose records all
entered with `hard_link_to = None`: the resolved list has the same length;
its `k`-th record is the `k`-th input record with `hard_link_to` set to the
relative path of the first earlier record sharing its inode (`find?` over
the prefix returns the first match) and left as `None` when there is none;
in particular a record's `hard_link_to` is `None` exactly when no earlier
record of the root has its inode — the first record of each inode is the
unique canonical one, and every later one points at its relative path. -/
theorem C6_pass1_canonical (p : ConexPlanner) (lbl : String)
    (fs : List ConexFile) (hmem : (lbl, fs) ∈ p.layer_to_files)
    (hnone : ∀ f ∈ fs, f.hard_link_to = none) :
    (lbl, resolveHardLinks fs []) ∈ pass1 p ∧
    (resolveHardLinks fs []).length = fs.length ∧
    (∀ (k : Nat) (f0 : ConexFile), fs[k]? = some f0 →
      (resolveHardLinks fs [])[k]? =
        some (match (fs.take k).find? (fun g => g.inode == f0.inode) with
          | some g => { f0 with hard_link_to := some g.relative_path }
          | none => f0)) ∧
    (∀ (k : Nat) (f0 g0 : ConexFile), fs[k]? = some f0 →
      (resolveHardLinks fs [])[k]? = some g0 →
      (g0.hard_link_to = none ↔
        ∀ (j : Nat) (f1 : ConexFile), j < k → fs[j]? = some f1 →
          f1.inode ≠ f0.inode)) := by
  have hchar := resolveHardLinks_get fs [] []
    (fun i => by simp [lookupInode, List.find?_nil])
  obtain ⟨hlen, hget⟩ := hchar
  have hget2 : ∀ (k : Nat) (f0 : ConexFile), fs[k]? = some f0 →
      (resolveHardLinks fs [])[k]? =
        some (match (fs.take k).find? (fun g => g.inode == f0.inode) with
          | some g => { f0 with hard_link_to := some g.relative_path }
          | none => f0) := by
    intro k f0 hf0
    have h0 := hget k f0 hf0
    rw [List.nil_append] at h0
    exact h0
  refine ⟨List.mem_map_of_mem _ hmem, hlen, hget2, ?_⟩
  intro k f0 g0 hf0 hg0
  rw [hget2 k f0 hf0] at hg0
  injection hg0 with hg0
  cases hp : (fs.take k).find? (fun g => g.inode == f0.inode) with
  | some g =>
    rw [hp] at hg0
    constructor
    · intro habs
      rw [← hg0] at habs
      simp at habs
    · intro hall
      exfalso
      have hpg := List.find?_some hp
      have hmem2 := List.mem_of_find?_eq_some hp
      rw [List.mem_take_iff_getElem] at hmem2
      obtain ⟨j, hj, hgj⟩ := hmem2
      have hj1 : j < k := (Nat.lt_min.mp hj).1
      have hj2 : j < fs.length := (Nat.lt_min.mp hj).2
      refine hall j g hj1 ?_ ?_
      · rw [List.getElem?_eq_getElem hj2, hgj]
      · exact beq_iff_eq.mp hpg
  | none =>
    rw [hp] at hg0
    have hf0mem : f0 ∈ fs := by
      rcases List.getElem?_eq_some.mp hf0 with ⟨hklt, hk0⟩
      rw [← hk0]
      exact List.getElem_mem hklt
    constructor
    · intro _ j f1 hj hf1
      intro habs
      have hfind := List.find?_eq_none.mp hp f1 ?_
      · rw [habs] at hfind
        simp at hfind
      · rw [List.mem_take_iff_getElem]
        rcases List.getElem?_eq_some.mp hf1 with ⟨hjlt, hj0⟩
        exact ⟨j, Nat.lt_min.mpr ⟨hj, hjlt⟩, hj0⟩
    · intro _
      rw [← hg0]
      exact hnone f0 hf0mem

/-- C6 witness: in `plannerC1`'s root (`fileA` then its hard link `fileB`,
both entering with `hard_link_to = None`), pass 1 leaves `fileA` canonical
and points `fileB` at `"a"`. -/
theorem C6_witness :
    ("r", resolveHardLinks [fileA, fileB] []) ∈ pass1 plannerC1 ∧
    resolveHardLinks [fileA, fileB] [] =
      [fileA, { fileB with hard_link_to := some "a" }] := by
  have h := C6_pass1_canonical plannerC1 "r" [fileA, fileB]
    (by decide) (by decide)
  exact ⟨h.1, by decide⟩
